import Mathlib

/-!
Shallow embedding of the MCTS decision engine in `ggpa/mcts_bot.py`
(classes `TreeNode` and `MCTSAgent`).

Modelling conventions:
* The battle/game simulation is an external collaborator (spec section 1);
  it is embedded as an abstract interface record `Game` whose fields are the
  operations the search consumes (spec section 6), plus the attribute probes
  the rollout heuristic performs on actions and states (`isAttack`, `isBlock`,
  `enemies`, `turn`).  The real `BattleState` provides `health`/`turn`/
  `enemies`, so the Python `hasattr` guards are modelled as always true.
* Python floats are modelled as rationals; the library routines `math.sqrt`
  and `math.log` are external real-valued functions and appear as abstract
  fields `sqrt` and `log` of the interface.
* The mutable node graph (children dictionaries, parent back-references) is
  modelled as an arena: a list of nodes addressed by index, the root at
  index 0, exactly as suggested by the spec's design notes.  Python dicts
  preserve insertion order, so a children dictionary becomes an ordered
  association list with replace-or-append insertion.
* Python's global random generator is a stream of naturals `Rng`;
  `random.choice(l)` reads the next stream value `k` and returns element
  `k % len(l)`.  `random.choice` of an empty list raises `IndexError`; that
  is modelled by `Option` (`none` = the exception escapes).
* `state.copy_undeterministic()` consumes one stream value as its seed.
-/

/-- Stream of pseudo-random naturals together with a cursor, modelling the
Python global random generator. -/
structure Rng where
  seq : Nat → Nat
  idx : Nat

/-- Draw the next pseudo-random natural. -/
def Rng.next (r : Rng) : Nat × Rng :=
  (r.seq r.idx, ⟨r.seq, r.idx + 1⟩)

/-- Model of `random.choice`: pick the element indexed by the next stream
value reduced modulo the length; `none` models the `IndexError` raised on an
empty list. -/
def randChoice {α : Type} (r : Rng) (l : List α) : Option α × Rng :=
  let (k, r1) := r.next
  (l.get? (k % l.length), r1)

/-- Model of Python `max(l, key := f)`: first element realising the maximum
(`max` replaces the current best only on a strictly greater key). -/
def argmaxBy {α : Type} (f : α → ℚ) : List α → Option α
  | [] => none
  | x :: xs => some (xs.foldl (fun b y => if f b < f y then y else b) x)

/-- Guard constant `1e-6` added to visit counts in denominators (`mkRat n d`
is the rational `n / d`; this spelling reduces inside the kernel). -/
def eps : ℚ := mkRat 1 1000000

/-- One entry of a node's children dictionary: canonical key (Python
`str(action)`), the action object, and the arena index of the child node. -/
structure ChildEntry (A : Type) where
  key : String
  act : A
  idx : Nat

/-- Shallow embedding of the `TreeNode` attributes set up in
`TreeNode.__init__`.  `parent` and `children` hold arena indices. -/
structure TreeNode (A : Type) where
  children : List (ChildEntry A)
  parent : Option Nat
  param : ℚ
  visits : Nat
  total_score : ℚ
  untried_actions : Option (List A)
  action_from_parent : Option A

/-- Node value used for out-of-range arena reads (such reads never happen on
well-formed trees). -/
def dummyNode {A : Type} : TreeNode A :=
  ⟨[], none, 0, 0, 0, none, none⟩

/-- Arena of tree nodes; the root of the search tree is index 0. -/
structure SearchTree (A : Type) where
  nodes : List (TreeNode A)

/-- Number of nodes in the arena. -/
def SearchTree.size {A : Type} (t : SearchTree A) : Nat :=
  t.nodes.length

/-- Read the node at index `i`. -/
def SearchTree.node {A : Type} (t : SearchTree A) (i : Nat) : TreeNode A :=
  t.nodes.getD i dummyNode

/-- In-place update of the node at index `i`, modelling Python attribute
assignment on a node object. -/
def SearchTree.modifyNode {A : Type} (t : SearchTree A) (i : Nat)
    (f : TreeNode A → TreeNode A) : SearchTree A :=
  ⟨t.nodes.set i (f (t.node i))⟩

/-- Model of `self.children[str(action)] = (action, child)` on an ordered
dict: replace the value in place if the key is present, else append. -/
def insertEntry {A : Type} (l : List (ChildEntry A)) (e : ChildEntry A) :
    List (ChildEntry A) :=
  if l.any (fun x => x.key == e.key) then
    l.map (fun x => if x.key == e.key then e else x)
  else l ++ [e]

/-- Abstract interface to the external battle simulation (spec section 6)
plus the probes used by the rollout heuristic and the mathematical library
routines used by the UCB formula. -/
structure Game (S A C : Type) where
  get_actions : S → List A
  to_action : A → S → Option C
  step : S → A → S
  ended : S → Bool
  score : S → ℚ
  health : S → ℚ
  turn : S → ℚ
  enemies : S → List (ℚ × ℚ)
  isAttack : A → Bool
  isBlock : A → Bool
  keyOf : A → String
  copy_undet : S → Nat → S
  sqrt : ℚ → ℚ
  log : ℚ → ℚ

namespace MCTS

variable {S A C : Type}

/-- Untried-action list computed on first demand: all actions of the state
minus those already present as children keys (`TreeNode.is_fully_expanded`
and the same recomputation in `TreeNode.expand`). -/
def untriedInit (g : Game S A C) (nd : TreeNode A) (s : S) : List A :=
  (g.get_actions s).filter (fun a => ! nd.children.any (fun e => e.key == g.keyOf a))

/-- Untried-action list the node effectively works with: the cache when it
is populated, else the freshly computed list. -/
def effectiveUntried (g : Game S A C) (nd : TreeNode A) (s : S) : List A :=
  match nd.untried_actions with
  | some u => u
  | none => untriedInit g nd s

/-- Embedding of `TreeNode.is_fully_expanded`: populate the cache if absent
(a side effect on the node), and report whether the untried list is empty. -/
def is_fully_expanded (g : Game S A C) (t : SearchTree A) (n : Nat) (s : S) :
    SearchTree A × Bool :=
  let nd := t.node n
  match nd.untried_actions with
  | some u => (t, u.isEmpty)
  | none =>
    let l := untriedInit g nd s
    (t.modifyNode n (fun x => { x with untried_actions := some l }), l.isEmpty)

/-- UCB1 value of a child entry as computed in `TreeNode.best_uct_child`:
`total/(visits+eps) + param * sqrt(log(parentVisits+1)/(visits+eps))`. -/
def uctValue (g : Game S A C) (t : SearchTree A) (logN : ℚ) (p : ℚ)
    (e : ChildEntry A) : ℚ :=
  let c := t.node e.idx
  c.total_score / ((c.visits : ℚ) + eps) + p * g.sqrt (logN / ((c.visits : ℚ) + eps))

/-- Embedding of `TreeNode.best_uct_child`, returning the arena index of the
chosen child; `none` models the `IndexError` of `list(children.values())[0]`
on a node with no children at all. -/
def best_uct_child (g : Game S A C) (t : SearchTree A) (n : Nat) (s : S) :
    Option Nat :=
  let nd := t.node n
  let valid := nd.children.filter (fun e => (g.to_action e.act s).isSome)
  match valid with
  | [] => nd.children.head?.map (fun e => e.idx)
  | v => (argmaxBy (uctValue g t (g.log ((nd.visits : ℚ) + 1)) nd.param) v).map
      (fun e => e.idx)

/-- Loop body of `TreeNode.select`, with explicit fuel (the Python loop
terminates because child indices strictly increase inside a well-formed
arena; the fuel passed by `select` is the arena size, which dominates that
descent).  Each loop test first runs `is_fully_expanded`, whose caching side
effect happens even when the test then fails, exactly as in the Python
short-circuit `node.is_fully_expanded(state) and node.children and not
state.ended()`. -/
def selectAux (g : Game S A C) : Nat → SearchTree A → Nat → S → SearchTree A × Nat × S
  | 0, t, n, s => (t, n, s)
  | fuel + 1, t, n, s =>
    let p := is_fully_expanded g t n s
    let t1 := p.1
    if p.2 && !((t1.node n).children.isEmpty) && !(g.ended s) then
      match best_uct_child g t1 n s with
      | some c =>
        match (t1.node c).action_from_parent with
        | some a => selectAux g fuel t1 c (g.step s a)
        | none => (t1, c, s)
      | none => (t1, n, s)
    else (t1, n, s)

/-- Embedding of `TreeNode.select` run from the root node. -/
def select (g : Game S A C) (t : SearchTree A) (s : S) : SearchTree A × Nat × S :=
  selectAux g t.size t 0 s

/-- Pop actions from the end of the untried list (Python `list.pop`) until a
valid one is found; operates on the reversed list, returning the remaining
reversed tail and the found action. -/
def popFirstValid (g : Game S A C) (s : S) : List A → List A × Option A
  | [] => ([], none)
  | a :: rest =>
    if (g.to_action a s).isSome then (rest, some a) else popFirstValid g s rest

/-- Embedding of `TreeNode.expand`.  Note the faithful reproduction of the
original control flow: the expanded action is applied to a deep copy of the
state which is then discarded, so the caller's state is left untouched. -/
def expand (g : Game S A C) (t : SearchTree A) (n : Nat) (s : S) :
    SearchTree A × Nat :=
  let nd := t.node n
  let l := effectiveUntried g nd s
  let pr := popFirstValid g s l.reverse
  let remaining := pr.1.reverse
  let t1 := t.modifyNode n (fun x => { x with untried_actions := some remaining })
  match pr.2 with
  | none => (t1, n)
  | some a =>
    let childIdx := t1.size
    let child : TreeNode A :=
      { children := [], parent := some n, param := nd.param, visits := 0,
        total_score := 0, untried_actions := none, action_from_parent := some a }
    let t2 : SearchTree A := ⟨t1.nodes ++ [child]⟩
    let t3 := t2.modifyNode n
      (fun x => { x with children := insertEntry x.children ⟨g.keyOf a, a, childIdx⟩ })
    (t3, childIdx)

/-- Actions of a state that pass the `to_action` validity check. -/
def validActions (g : Game S A C) (s : S) : List A :=
  (g.get_actions s).filter (fun a => (g.to_action a s).isSome)

/-- Average enemy vitality estimate computed inside `TreeNode.rollout`. -/
def enemyHealth (g : Game S A C) (s : S) : ℚ :=
  match g.enemies s with
  | [] => 1
  | es =>
    let total := (es.map Prod.fst).sum
    let maxTotal := (es.map Prod.snd).sum
    if 0 < maxTotal then total / maxTotal else 1

/-- Heuristic action choice of one rollout step (`TreeNode.rollout` body):
block when the player is low, attack when the enemy is low, else prefer
attack, then block, then uniform random. -/
def pickRolloutAction (g : Game S A C) (s : S) (valid : List A) (r : Rng) :
    Option A × Rng :=
  let attack := valid.filter g.isAttack
  let block := valid.filter g.isBlock
  if g.health s < mkRat 2 5 ∧ block.isEmpty = false then randChoice r block
  else if enemyHealth g s < mkRat 2 5 ∧ attack.isEmpty = false then randChoice r attack
  else if attack.isEmpty = false then randChoice r attack
  else if block.isEmpty = false then randChoice r block
  else randChoice r valid

/-- Embedding of `TreeNode.score`. -/
def score (g : Game S A C) (s : S) : ℚ :=
  let base_score := g.score s
  let health_bonus := g.health s * mkRat 1 2
  if g.ended s ∧ g.health s ≤ 0 then -1
  else if g.ended s ∧ 0 < g.health s then
    let turn_bonus := max (mkRat 1 2) (mkRat 3 2 - mkRat 1 20 * g.turn s)
    1 * turn_bonus + health_bonus
  else if 10 < g.turn s then base_score * mkRat 1 2 + health_bonus
  else if g.health s < mkRat 3 10 then base_score + health_bonus - mkRat 1 2
  else base_score + health_bonus

/-- Simulation loop of `TreeNode.rollout` with `fuel = max_depth - depth`;
returns the final state, the number of `state.step` calls performed, and the
advanced random stream.  The loop exits on terminal states, on exhausted
depth, on an empty valid-action list, and (after stepping) on player death. -/
def rolloutAux (g : Game S A C) : Nat → S → Rng → S × Nat × Rng
  | 0, s, r => (s, 0, r)
  | fuel + 1, s, r =>
    if g.ended s then (s, 0, r)
    else
      let valid := validActions g s
      if valid.isEmpty then (s, 0, r)
      else
        match pickRolloutAction g s valid r with
        | (none, r1) => (s, 0, r1)
        | (some a, r1) =>
          let s1 := g.step s a
          if g.health s1 ≤ 0 then (s1, 1, r1)
          else
            let res := rolloutAux g fuel s1 r1
            (res.1, res.2.1 + 1, res.2.2)

/-- Embedding of `TreeNode.rollout` (`max_depth = 20`): simulate, then score
the reached state; also reports the number of simulation steps taken. -/
def rollout (g : Game S A C) (s : S) (r : Rng) : ℚ × Nat × Rng :=
  let res := rolloutAux g 20 s r
  (score g res.1, res.2.1, res.2.2)

/-- Recursion core of `TreeNode.backpropagate`, structurally recursive on an
explicit fuel.  On well-formed arenas parent indices strictly decrease, so
the fuel `i + 1` passed by `backpropagate` never runs out and the guard
`j < i` never fails; both only pin down termination of the Python recursion
through the parent chain. -/
def backpropAux : Nat → SearchTree A → Nat → ℚ → SearchTree A
  | 0, t, _, _ => t
  | fuel + 1, t, i, r =>
    let t1 := t.modifyNode i
      (fun x => { x with visits := x.visits + 1, total_score := x.total_score + r })
    match (t.node i).parent with
    | none => t1
    | some j => if j < i then backpropAux fuel t1 j r else t1

/-- Embedding of `TreeNode.backpropagate`: add the result to the node's
statistics and recurse on the parent. -/
def backpropagate (t : SearchTree A) (i : Nat) (r : ℚ) : SearchTree A :=
  backpropAux (i + 1) t i r

/-- Fuelled chain of arena indices walked by `backpropAux` started at `i`:
the node itself followed by its ancestors along parent references. -/
def ancestorsAux (t : SearchTree A) : Nat → Nat → List Nat
  | 0, _ => []
  | fuel + 1, i =>
    i :: (match (t.node i).parent with
          | none => []
          | some j => if j < i then ancestorsAux t fuel j else [])

/-- Chain of arena indices visited by `backpropagate` started at `i`. -/
def ancestors (t : SearchTree A) (i : Nat) : List Nat :=
  ancestorsAux t (i + 1) i

/-- Average-score key used by `TreeNode.get_best`. -/
def avgKey (t : SearchTree A) (e : ChildEntry A) : ℚ :=
  (t.node e.idx).total_score / (((t.node e.idx).visits : ℚ) + eps)

/-- Embedding of `TreeNode.get_best` on the root node: highest average score
among children still valid for the true state, with a uniform random
fallback over `get_actions` when there are no (valid) children. -/
def get_best (g : Game S A C) (t : SearchTree A) (s : S) (r : Rng) :
    Option A × Rng :=
  let nd := t.node 0
  if nd.children.isEmpty then randChoice r (g.get_actions s)
  else
    let valid := nd.children.filter (fun e => (g.to_action e.act s).isSome)
    if valid.isEmpty then randChoice r (g.get_actions s)
    else ((argmaxBy (avgKey t) valid).map (fun e => e.act), r)

/-- Selection phase followed by the (conditional) expansion phase of
`TreeNode.step`.  The third component is the state subsequently handed to
`rollout`; because `expand` discards the advanced copy, this is the state as
it was before the expanded action was applied. -/
def selectExpand (g : Game S A C) (t : SearchTree A) (s : S) :
    SearchTree A × Nat × S :=
  let res := select g t s
  let t1 := res.1
  let n1 := res.2.1
  let s1 := res.2.2
  if g.ended s1 then (t1, n1, s1)
  else
    let ex := expand g t1 n1 s1
    (ex.1, ex.2, s1)

/-- Embedding of `TreeNode.step`: select, expand, rollout, backpropagate. -/
def step (g : Game S A C) (t : SearchTree A) (s : S) (r : Rng) :
    SearchTree A × Rng :=
  let se := selectExpand g t s
  let ro := rollout g se.2.2 r
  (backpropagate se.1 se.2.1 ro.1, ro.2.2)

/-- Fresh one-node tree built by `TreeNode(self.param)` at the start of a
decision. -/
def initTree (A : Type) (p : ℚ) : SearchTree A :=
  ⟨[{ children := [], parent := none, param := p, visits := 0, total_score := 0,
      untried_actions := none, action_from_parent := none }]⟩

/-- Iteration loop of `MCTSAgent.choose_card`: each pass draws a fresh
undeterministic sample of the true state and runs one `TreeNode.step` on the
root. -/
def runIters (g : Game S A C) (s : S) : Nat → SearchTree A → Rng → SearchTree A × Rng
  | 0, t, r => (t, r)
  | n + 1, t, r =>
    let (k, r1) := r.next
    let sample := g.copy_undet s k
    let (t1, r2) := step g t sample r1
    runIters g s n t1 r2

/-- Embedding of `MCTSAgent.choose_card`.  The first component is the
returned value: `none` models an uncaught exception (only possible via
`random.choice` of an empty action list), `some none` models returning the
Python value `None`, and `some (some c)` a concrete action.  The second
component counts the iterations of the search loop that were executed (each
executes exactly one `TreeNode.step`, hence one backpropagation).  The
Python dead branch `if best_action is None` is unreachable because
`get_best` either returns an action or raises. -/
def choose_card (g : Game S A C) (iters : Nat) (p : ℚ) (s : S) (r : Rng) :
    Option (Option C) × Nat :=
  match g.get_actions s with
  | [a] => (some (g.to_action a s), 0)
  | _ =>
    let t0 := initTree A p
    let tr := runIters g s iters t0 r
    let gb := get_best g tr.1 s tr.2
    match gb.1 with
    | none => (none, iters)
    | some a => (some (g.to_action a s), iters)

/-- Well-formedness of a node arena: nonempty, the root (index 0) is the
unique node without a parent, parents were created before their children,
and children entries point inside the arena. -/
def WF (t : SearchTree A) : Prop :=
  0 < t.size ∧
  ∀ i, i < t.size →
    ((t.node i).parent = none ↔ i = 0) ∧
    (∀ j, (t.node i).parent = some j → j < i) ∧
    (∀ e, e ∈ (t.node i).children → e.idx < t.size)

end MCTS

/-- Constant random stream. -/
def rngConst (k : Nat) : Rng :=
  ⟨fun _ => k, 0⟩

/-- Concrete adapter instance exercising the over-approximation allowance of
the interface: both enumerated actions exist in every state, action `0` is
valid only in the true state (`true`), action `1` is valid nowhere, and
undeterministic copies land in the sample state (`false`). -/
def overApproxGame : Game Bool Nat Nat where
  get_actions _ := [0, 1]
  to_action a s := if s && (a == 0) then some a else none
  step s _ := s
  ended _ := false
  score _ := 0
  health _ := 1
  turn _ := 0
  enemies _ := []
  isAttack _ := false
  isBlock _ := false
  keyOf a := toString a
  copy_undet _ _ := false
  sqrt q := q
  log q := q

/-- Concrete adapter instance with a single, always valid action; stepping
increments the state counter and the intrinsic score reports the counter. -/
def singleActionGame : Game Nat Nat Nat where
  get_actions _ := [7]
  to_action a _ := some a
  step s _ := s + 1
  ended _ := false
  score s := (s : ℚ)
  health _ := 1
  turn _ := 0
  enemies _ := []
  isAttack _ := false
  isBlock _ := false
  keyOf a := toString a
  copy_undet s _ := s
  sqrt q := q
  log q := q

/-- Concrete adapter instance whose two enumerated actions are valid in
every state. -/
def allValidGame : Game Nat Nat Nat where
  get_actions _ := [0, 1]
  to_action a _ := some a
  step s _ := s + 1
  ended s := decide (2 ≤ s)
  score s := (s : ℚ)
  health _ := 1
  turn _ := 0
  enemies _ := []
  isAttack _ := false
  isBlock _ := false
  keyOf a := toString a
  copy_undet s _ := s
  sqrt q := q
  log q := q

/-- Concrete terminal losing state carrying nonzero values in every other
field. -/
def lossGame : Game Nat Nat Nat :=
  { singleActionGame with
    ended := fun _ => true
    health := fun _ => -3
    turn := fun _ => 9
    score := fun _ => 100 }

/-- Concrete two-node arena: the root has one expanded child for action `7`
and an exhausted untried cache. -/
def demoTree : SearchTree Nat :=
  ⟨[{ children := [⟨"7", 7, 1⟩], parent := none, param := 1, visits := 1,
      total_score := 1, untried_actions := some [], action_from_parent := none },
    { children := [], parent := some 0, param := 1, visits := 1, total_score := 1,
      untried_actions := none, action_from_parent := some 7 }]⟩

/-- Concrete one-node arena whose root caches the untried actions `[5, 7]`. -/
def cacheTree : SearchTree Nat :=
  ⟨[{ children := [], parent := none, param := 1, visits := 0,
      total_score := 0, untried_actions := some [5, 7], action_from_parent := none }]⟩

/-- C1 counterexample: in `overApproxGame` the true state `true` is not
terminal and offers the valid action `0`, yet `choose_card` with one
iteration returns Python `None` (modelled `some none`): every sampled state
invalidates all actions, so the root gains no children, the final fallback
draws the enumerated-but-invalid action `1` uniformly from `get_actions`,
and `to_action` rejects it against the true state. -/
theorem choose_card_returns_none_on_invalid_fallback :
    MCTS.choose_card overApproxGame 1 1 true (rngConst 1) = (some none, 1) ∧
    overApproxGame.ended true = false ∧
    overApproxGame.to_action 0 true = some 0 := by
  decide

/-- C3: the code violates the claim.  In `singleActionGame`, one search step
from a fresh root expands action `7`, but because `TreeNode.expand` applies
the action to a deep copy of the state and then discards that copy, the
state handed to `rollout` (third component of `selectExpand`) is the
pre-action state `0` and not the post-action state `step 0 7 = 1`; the
backpropagated outcome is accordingly the rollout score from `0` (41/2),
not the rollout score from `1` (43/2). -/
theorem rollout_receives_preaction_state :
    (MCTS.selectExpand singleActionGame (MCTS.initTree Nat 1) 0).2.2 = 0 ∧
    ((MCTS.selectExpand singleActionGame (MCTS.initTree Nat 1) 0).1.node
        (MCTS.selectExpand singleActionGame (MCTS.initTree Nat 1) 0).2.1).action_from_parent
      = some 7 ∧
    singleActionGame.step 0 7 = 1 ∧
    (MCTS.rolloutAux singleActionGame 20
        (MCTS.selectExpand singleActionGame (MCTS.initTree Nat 1) 0).2.2 (rngConst 0)).1
      = 20 ∧
    (MCTS.rolloutAux singleActionGame 20 1 (rngConst 0)).1 = 21 := by
  refine ⟨by decide, by decide, rfl, by decide, by decide⟩

/-- C4: when the true state enumerates exactly one action, `choose_card`
returns that action's `to_action` conversion at once, executing zero search
iterations (hence zero `TreeNode.step` calls and zero backpropagations). -/
theorem choose_card_single_action {S A C : Type} (g : Game S A C) (iters : Nat)
    (p : ℚ) (s : S) (r : Rng) (a : A) (h : g.get_actions s = [a]) :
    MCTS.choose_card g iters p s r = (some (g.to_action a s), 0) := by
  unfold MCTS.choose_card
  rw [h]

/-- C4 witness: `singleActionGame` offers the single action `7` in state
`0`, and the driver returns it with zero iterations executed. -/
theorem choose_card_single_action_witness :
    MCTS.choose_card singleActionGame 5 1 0 (rngConst 0) = (some (some 7), 0) :=
  choose_card_single_action singleActionGame 5 1 0 (rngConst 0) 7 rfl

/-- C5: `TreeNode.score` maps every terminal state with vitality at most 0
to the fixed loss value -1, whatever the other state fields hold. -/
theorem score_terminal_loss {S A C : Type} (g : Game S A C) (s : S)
    (h1 : g.ended s = true) (h2 : g.health s ≤ 0) :
    MCTS.score g s = -1 := by
  unfold MCTS.score
  rw [if_pos ⟨h1, h2⟩]

/-- C5 witness: in `lossGame` the state `0` is terminal with vitality -3
while the intrinsic score is 100 and the turn counter is 9; the evaluation
is still -1. -/
theorem score_terminal_loss_witness :
    MCTS.score lossGame 0 = -1 ∧ lossGame.score 0 = 100 ∧ lossGame.turn 0 = 9 :=
  ⟨score_terminal_loss lossGame 0 rfl (by norm_num : (-3 : ℚ) ≤ 0), rfl, rfl⟩

/-- Helper: the fold underlying `argmaxBy` returns the seed or a list
element. -/
theorem foldlMax_mem {α : Type} (f : α → ℚ) (l : List α) (b : α) :
    l.foldl (fun b y => if f b < f y then y else b) b ∈ b :: l := by
  induction l generalizing b with
  | nil => simp
  | cons y ys ih =>
    have h := ih (if f b < f y then y else b)
    by_cases hc : f b < f y <;> simp [hc] at h ⊢ <;> tauto

/-- Helper: the fold underlying `argmaxBy` dominates the seed and every list
element in key order. -/
theorem foldlMax_ge {α : Type} (f : α → ℚ) (l : List α) (b : α) :
    ∀ c ∈ b :: l, f c ≤ f (l.foldl (fun b y => if f b < f y then y else b) b) := by
  induction l generalizing b with
  | nil =>
    intro c hc
    rw [List.mem_singleton] at hc
    subst hc
    simp
  | cons y ys ih =>
    intro c hc
    have hfold : (y :: ys).foldl (fun b y => if f b < f y then y else b) b
        = ys.foldl (fun b y => if f b < f y then y else b) (if f b < f y then y else b) := rfl
    have hb' : f b ≤ f (if f b < f y then y else b) := by
      by_cases hb : f b < f y
      · simp only [if_pos hb]
        exact le_of_lt hb
      · simp [hb]
    have hy' : f y ≤ f (if f b < f y then y else b) := by
      by_cases hb : f b < f y
      · simp [hb]
      · simp only [if_neg hb]
        exact le_of_not_lt hb
    have hres : f (if f b < f y then y else b)
        ≤ f (ys.foldl (fun b y => if f b < f y then y else b) (if f b < f y then y else b)) :=
      ih _ _ (List.mem_cons_self _ _)
    rw [hfold]
    rcases List.mem_cons.mp hc with rfl | hc2
    · exact hb'.trans hres
    · rcases List.mem_cons.mp hc2 with rfl | hc3
      · exact hy'.trans hres
      · exact ih _ c (List.mem_cons_of_mem _ hc3)

/-- Helper: a result of `argmaxBy` belongs to the list and dominates every
element in key order. -/
theorem argmaxBy_spec {α : Type} (f : α → ℚ) (l : List α) (x : α)
    (h : argmaxBy f l = some x) : x ∈ l ∧ ∀ y ∈ l, f y ≤ f x := by
  cases l with
  | nil => simp [argmaxBy] at h
  | cons a as =>
    simp only [argmaxBy, Option.some.injEq] at h
    subst h
    exact ⟨foldlMax_mem f as a, foldlMax_ge f as a⟩

/-- Helper: `argmaxBy` succeeds on a nonempty list. -/
theorem argmaxBy_isSome {α : Type} (f : α → ℚ) (l : List α) (h : l ≠ []) :
    ∃ x, argmaxBy f l = some x := by
  cases l with
  | nil => exact absurd rfl h
  | cons a as => exact ⟨_, rfl⟩

/-- Helper: `randChoice` on a nonempty list returns an element of the
list. -/
theorem randChoice_mem {α : Type} (r : Rng) (l : List α) (h : l ≠ []) :
    ∃ x, (randChoice r l).1 = some x ∧ x ∈ l := by
  have hlen : 0 < l.length := List.length_pos.mpr h
  have hlt : r.seq r.idx % l.length < l.length := Nat.mod_lt _ hlen
  refine ⟨l.get ⟨_, hlt⟩, ?_, List.get_mem _ _ hlt⟩
  simp [randChoice, Rng.next, List.get?_eq_get hlt]

/-- Helper: whenever the true state enumerates at least one action and every
enumerated action is accepted by `to_action`, `get_best` returns an action
accepted by `to_action`, on both the best-child path and the random
fallback paths. -/
theorem get_best_valid (g : Game S A C) (t : SearchTree A) (s : S) (r : Rng)
    (hne : g.get_actions s ≠ [])
    (hval : ∀ a ∈ g.get_actions s, (g.to_action a s).isSome = true) :
    ∃ a, (MCTS.get_best g t s r).1 = some a ∧ (g.to_action a s).isSome = true := by
  unfold MCTS.get_best
  by_cases h1 : (t.node 0).children.isEmpty
  · obtain ⟨x, hx, hmem⟩ := randChoice_mem r (g.get_actions s) hne
    exact ⟨x, by simp [h1, hx], hval x hmem⟩
  · by_cases h2 :
      ((t.node 0).children.filter (fun e => (g.to_action e.act s).isSome)).isEmpty
    · obtain ⟨x, hx, hmem⟩ := randChoice_mem r (g.get_actions s) hne
      exact ⟨x, by simp [h1, h2, hx], hval x hmem⟩
    · have hvne :
          (t.node 0).children.filter (fun e => (g.to_action e.act s).isSome) ≠ [] := by
        intro hcon
        rw [hcon] at h2
        exact h2 rfl
      obtain ⟨e, he⟩ := argmaxBy_isSome (MCTS.avgKey t) _ hvne
      obtain ⟨hmem, _⟩ := argmaxBy_spec _ _ _ he
      have hsome : (g.to_action e.act s).isSome = true :=
        (List.mem_filter.mp hmem).2
      exact ⟨e.act, by simp [h1, h2, he], hsome⟩

/-- C1 (amended): for any state whose enumerated action list is nonempty and
all of whose enumerated actions are accepted by `to_action` against it, the
decision driver returns a concrete action (never Python `None` and never an
exception), for every iteration count, on the best-child path, the
single-action shortcut, and the random fallback alike. -/
theorem choose_card_returns_valid (g : Game S A C) (iters : Nat) (p : ℚ)
    (s : S) (r : Rng) (hne : g.get_actions s ≠ [])
    (hval : ∀ a ∈ g.get_actions s, (g.to_action a s).isSome = true) :
    ∃ c, (MCTS.choose_card g iters p s r).1 = some (some c) := by
  rcases hacts : g.get_actions s with _ | ⟨a, _ | ⟨b, rest⟩⟩
  · exact absurd hacts hne
  · have ha : (g.to_action a s).isSome = true := by
      refine hval a ?_
      rw [hacts]
      exact List.mem_singleton_self a
    obtain ⟨c, hc⟩ := Option.isSome_iff_exists.mp ha
    exact ⟨c, by simp [MCTS.choose_card, hacts, hc]⟩
  · obtain ⟨x, hx, hsome⟩ :=
      get_best_valid g
        (MCTS.runIters g s iters (MCTS.initTree A p) r).1 s
        (MCTS.runIters g s iters (MCTS.initTree A p) r).2 hne hval
    obtain ⟨c, hc⟩ := Option.isSome_iff_exists.mp hsome
    refine ⟨c, ?_⟩
    simp only [MCTS.choose_card, hacts]
    rw [hx]
    simp [hc]

/-- C1 witness: in `allValidGame` (two actions, both always valid) a
one-iteration decision from state 0 yields a concrete action. -/
theorem choose_card_returns_valid_witness :
    ∃ c, (MCTS.choose_card allValidGame 1 1 0 (rngConst 0)).1 = some (some c) :=
  choose_card_returns_valid allValidGame 1 1 0 (rngConst 0) (by decide) (by decide)

/-- Helper: `modifyNode` preserves the arena size. -/
theorem size_modify {A : Type} (t : SearchTree A) (i : Nat)
    (f : TreeNode A → TreeNode A) : (t.modifyNode i f).size = t.size := by
  simp [SearchTree.modifyNode, SearchTree.size]

/-- Helper: reading an arena after `modifyNode`. -/
theorem node_modify {A : Type} (t : SearchTree A) (i : Nat)
    (f : TreeNode A → TreeNode A) (j : Nat) :
    (t.modifyNode i f).node j =
      if i = j ∧ i < t.size then f (t.node i) else t.node j := by
  simp only [SearchTree.modifyNode, SearchTree.node, SearchTree.size,
    List.getD_eq_getElem?_getD, List.getElem?_set]
  by_cases h1 : i = j
  · subst h1
    by_cases h2 : i < t.nodes.length
    · simp [h2, List.getD_eq_getElem?_getD]
    · simp [h2, List.getElem?_eq_none (le_of_not_lt h2)]
  · simp [h1]

/-- Helper: popping through a list of invalid actions consumes all of it and
finds nothing. -/
theorem popFirstValid_all_invalid {S A C : Type} (g : Game S A C) (s : S)
    (m : List A) (h : ∀ a ∈ m, g.to_action a s = none) :
    MCTS.popFirstValid g s m = ([], none) := by
  induction m with
  | nil => rfl
  | cons a rest ih =>
    have ha : g.to_action a s = none := h a (List.mem_cons_self a rest)
    have hrest : ∀ b ∈ rest, g.to_action b s = none := fun b hb =>
      h b (List.mem_cons_of_mem a hb)
    simp [MCTS.popFirstValid, ha, ih hrest]

/-- C7: when every untried action of a node is invalid against the current
state, expansion returns the node itself, creates no child, and leaves the
children mapping and the visit and score statistics of every node in the
arena unmodified (only the untried cache is drained), without raising. -/
theorem expand_all_invalid {S A C : Type} (g : Game S A C) (t : SearchTree A)
    (n : Nat) (s : S)
    (h : ∀ a ∈ MCTS.effectiveUntried g (t.node n) s, g.to_action a s = none) :
    (MCTS.expand g t n s).2 = n ∧
    (∀ j, ((MCTS.expand g t n s).1.node j).children = (t.node j).children) ∧
    (∀ j, ((MCTS.expand g t n s).1.node j).visits = (t.node j).visits) ∧
    (∀ j, ((MCTS.expand g t n s).1.node j).total_score = (t.node j).total_score) ∧
    (MCTS.expand g t n s).1.size = t.size := by
  have hrev : ∀ a ∈ (MCTS.effectiveUntried g (t.node n) s).reverse,
      g.to_action a s = none := fun a ha => h a (List.mem_reverse.mp ha)
  have hpop := popFirstValid_all_invalid g s _ hrev
  have hexp : MCTS.expand g t n s =
      (t.modifyNode n (fun x => { x with untried_actions := some [] }), n) := by
    simp only [MCTS.expand, hpop, List.reverse_nil]
  rw [hexp]
  refine ⟨rfl, ?_, ?_, ?_, size_modify t n _⟩
  all_goals
    intro j
    rw [node_modify]
    split
    · rename_i hij
      obtain ⟨rfl, -⟩ := hij
      rfl
    · rfl

/-- C7 witness: in `overApproxGame` the sample state `false` invalidates
both untried actions of a fresh root; expansion returns the root. -/
theorem expand_all_invalid_witness :
    (∀ a ∈ MCTS.effectiveUntried overApproxGame ((MCTS.initTree Nat 1).node 0) false,
        overApproxGame.to_action a false = none) ∧
    (MCTS.expand overApproxGame (MCTS.initTree Nat 1) 0 false).2 = 0 :=
  ⟨by decide,
    (expand_all_invalid overApproxGame (MCTS.initTree Nat 1) 0 false (by decide)).1⟩

/-- Helper: the rollout loop performs at most `fuel` simulation steps. -/
theorem rolloutAux_le {S A C : Type} (g : Game S A C) (fuel : Nat) (s : S)
    (r : Rng) : (MCTS.rolloutAux g fuel s r).2.1 ≤ fuel := by
  induction fuel generalizing s r with
  | zero => simp [MCTS.rolloutAux]
  | succ fuel ih =>
    rw [MCTS.rolloutAux]
    by_cases he : g.ended s
    · simp [he]
    · simp only [he, Bool.false_eq_true, if_false]
      by_cases hv : (MCTS.validActions g s).isEmpty
      · simp [hv]
      · simp only [hv, Bool.false_eq_true, if_false]
        rcases hp : MCTS.pickRolloutAction g s (MCTS.validActions g s) r with ⟨o, r1⟩
        cases o with
        | none => simp
        | some a =>
          by_cases hd : g.health (g.step s a) ≤ 0
          · simp [hd]
          · simp only [hd, if_false]
            have := ih (g.step s a) r1
            omega

/-- C9: rollout always terminates within the fixed depth cutoff of 20
simulation steps, and performs zero steps whenever the starting state is
terminal or offers no currently valid action. -/
theorem rollout_terminates {S A C : Type} (g : Game S A C) (s : S) (r : Rng) :
    (MCTS.rollout g s r).2.1 ≤ 20 ∧
    (g.ended s = true ∨ MCTS.validActions g s = [] →
      (MCTS.rollout g s r).2.1 = 0) := by
  constructor
  · exact rolloutAux_le g 20 s r
  · intro hstop
    have : (MCTS.rolloutAux g 20 s r).2.1 = 0 := by
      rcases hstop with he | hv
      · rw [MCTS.rolloutAux, if_pos he]
      · rw [MCTS.rolloutAux]
        by_cases he : g.ended s
        · rw [if_pos he]
        · rw [if_neg he, hv]
          simp
    simpa [MCTS.rollout] using this

/-- C9 witness: from the sample state `false` of `overApproxGame` no action
is valid, so the rollout performs zero steps (and in particular at most
20). -/
theorem rollout_terminates_witness :
    (MCTS.rollout overApproxGame false (rngConst 0)).2.1 ≤ 20 ∧
    (MCTS.rollout overApproxGame false (rngConst 0)).2.1 = 0 :=
  ⟨(rollout_terminates overApproxGame false (rngConst 0)).1,
    (rollout_terminates overApproxGame false (rngConst 0)).2 (Or.inr (by decide))⟩

/-- C6: on a node with at least one child, `best_uct_child` never divides by
zero (every UCB denominator `visits + eps` is strictly positive) and never
raises: among the children whose action is still applicable to the state it
returns a child maximising the UCB1 value computed with the node's `param`
as exploration constant; when no child action remains valid it falls back
to the first existing child. -/
theorem best_uct_child_spec {S A C : Type} (g : Game S A C) (t : SearchTree A)
    (n : Nat) (s : S) (h : (t.node n).children ≠ []) :
    (∀ e ∈ (t.node n).children, (0 : ℚ) < ((t.node e.idx).visits : ℚ) + eps) ∧
    ∃ c, MCTS.best_uct_child g t n s = some c ∧
      (((t.node n).children.filter (fun e => (g.to_action e.act s).isSome) = [] ∧
          ∃ e0, (t.node n).children.head? = some e0 ∧ c = e0.idx) ∨
       (∃ e ∈ (t.node n).children.filter (fun e => (g.to_action e.act s).isSome),
          c = e.idx ∧
          ∀ v ∈ (t.node n).children.filter (fun e => (g.to_action e.act s).isSome),
            MCTS.uctValue g t (g.log (((t.node n).visits : ℚ) + 1)) (t.node n).param v ≤
            MCTS.uctValue g t (g.log (((t.node n).visits : ℚ) + 1)) (t.node n).param e)) := by
  constructor
  · intro e he
    have heps : (0 : ℚ) < eps := by
      rw [eps, Rat.mkRat_eq_div]
      norm_num
    have hnn : (0 : ℚ) ≤ ((t.node e.idx).visits : ℚ) := Nat.cast_nonneg _
    linarith
  · rcases hv : (t.node n).children.filter (fun e => (g.to_action e.act s).isSome) with
      _ | ⟨v0, vs⟩
    · rcases hh : (t.node n).children with _ | ⟨e0, es⟩
      · exact absurd hh h
      · have hv2 : (e0 :: es).filter (fun e => (g.to_action e.act s).isSome) = [] := by
          rw [← hh]
          exact hv
        refine ⟨e0.idx, ?_, Or.inl ⟨hv2, e0, rfl, rfl⟩⟩
        simp [MCTS.best_uct_child, hh, hv2]
    · obtain ⟨e, he⟩ := argmaxBy_isSome
        (MCTS.uctValue g t (g.log (((t.node n).visits : ℚ) + 1)) (t.node n).param)
        (v0 :: vs) (List.cons_ne_nil v0 vs)
      obtain ⟨hmem, hge⟩ := argmaxBy_spec _ _ _ he
      refine ⟨e.idx, ?_, Or.inr ⟨e, ?_, rfl, ?_⟩⟩
      · simp [MCTS.best_uct_child, hv, he]
      · rw [hv]
        exact hmem
      · intro v hvmem
        rw [hv] at hvmem
        exact hge v hvmem

/-- C6 witness: `demoTree`'s root has one child (for action 7, valid in
`allValidGame`), so `best_uct_child` succeeds there. -/
theorem best_uct_child_spec_witness :
    (demoTree.node 0).children ≠ [] ∧
    ∃ c, MCTS.best_uct_child allValidGame demoTree 0 5 = some c :=
  ⟨List.cons_ne_nil _ _,
    ((best_uct_child_spec allValidGame demoTree 0 5 (List.cons_ne_nil _ _)).2).imp
      (fun _ hc => hc.1)⟩

/-- Helper: arena reads after appending one node. -/
theorem node_append {A : Type} (t : SearchTree A) (c : TreeNode A) (j : Nat) :
    (SearchTree.mk (t.nodes ++ [c])).node j =
      if j < t.size then t.node j else if j = t.size then c else dummyNode := by
  simp only [SearchTree.node, SearchTree.size, List.getD_eq_getElem?_getD,
    List.getElem?_append]
  by_cases h1 : j < t.nodes.length
  · simp [h1]
  · simp only [h1, if_false]
    by_cases h2 : j = t.nodes.length
    · subst h2
      simp
    · have h3 : 1 ≤ j - t.nodes.length := by omega
      rw [List.getElem?_eq_none (by simpa using h3)]
      simp [h2]

/-- Helper: arena size after appending one node. -/
theorem size_append {A : Type} (t : SearchTree A) (c : TreeNode A) :
    (SearchTree.mk (t.nodes ++ [c])).size = t.size + 1 := by
  simp [SearchTree.size]

/-- Helper: a member of `insertEntry l e` is a member of `l` or `e` itself. -/
theorem insertEntry_mem {A : Type} (l : List (ChildEntry A)) (e x : ChildEntry A)
    (h : x ∈ insertEntry l e) : x ∈ l ∨ x = e := by
  unfold insertEntry at h
  by_cases hk : l.any (fun y => y.key == e.key)
  · rw [if_pos hk] at h
    obtain ⟨y, hy, hxy⟩ := List.mem_map.mp h
    by_cases hyk : y.key == e.key
    · rw [if_pos hyk] at hxy
      exact Or.inr hxy.symm
    · rw [if_neg hyk] at hxy
      exact Or.inl (hxy ▸ hy)
  · rw [if_neg hk] at h
    rcases List.mem_append.mp h with h1 | h1
    · exact Or.inl h1
    · exact Or.inr (List.mem_singleton.mp h1)

/-- Helper: structural equality of arenas (same size, parents and children
everywhere) transports well-formedness. -/
theorem WF_of_same_structure {A : Type} (t t2 : SearchTree A)
    (hs : t2.size = t.size)
    (hp : ∀ i, (t2.node i).parent = (t.node i).parent)
    (hc : ∀ i, (t2.node i).children = (t.node i).children)
    (h : MCTS.WF t) : MCTS.WF t2 := by
  obtain ⟨h0, hnodes⟩ := h
  refine ⟨hs ▸ h0, ?_⟩
  intro i hi
  rw [hs] at hi
  obtain ⟨hiff, hlt, hch⟩ := hnodes i hi
  exact ⟨by rw [hp]; exact hiff, by rw [hp]; exact hlt,
    by rw [hc, hs]; exact hch⟩

/-- Helper: the fresh one-node tree is well formed. -/
theorem wf_initTree {A : Type} (p : ℚ) : MCTS.WF (MCTS.initTree A p) := by
  refine ⟨by simp [MCTS.initTree, SearchTree.size], ?_⟩
  intro i hi
  have hi0 : i = 0 := by
    simpa [MCTS.initTree, SearchTree.size] using hi
  subst hi0
  refine ⟨by simp [MCTS.initTree, SearchTree.node], ?_, ?_⟩
  · intro j hj
    simp [MCTS.initTree, SearchTree.node] at hj
  · intro e he
    simp [MCTS.initTree, SearchTree.node] at he

/-- Helper: every index in the ancestor chain is at most the start index. -/
theorem ancestorsAux_le {A : Type} (t : SearchTree A) :
    ∀ fuel i k, k ∈ MCTS.ancestorsAux t fuel i → k ≤ i := by
  intro fuel
  induction fuel with
  | zero => intro i k hk; simp [MCTS.ancestorsAux] at hk
  | succ fuel ih =>
    intro i k hk
    rw [MCTS.ancestorsAux] at hk
    rcases List.mem_cons.mp hk with rfl | hk2
    · exact le_refl k
    · rcases hp : (t.node i).parent with _ | j
      · rw [hp] at hk2
        simp at hk2
      · rw [hp] at hk2
        have hk3 : k ∈ (if j < i then MCTS.ancestorsAux t fuel j else []) := hk2
        by_cases hj : j < i
        · rw [if_pos hj] at hk3
          exact le_of_lt (lt_of_le_of_lt (ih j k hk3) hj)
        · rw [if_neg hj] at hk3
          simp at hk3

/-- Helper: the ancestor chain only depends on parent references at or below
the start index. -/
theorem ancestorsAux_congr {A : Type} (t t2 : SearchTree A) :
    ∀ fuel i, (∀ m, m ≤ i → (t2.node m).parent = (t.node m).parent) →
      MCTS.ancestorsAux t2 fuel i = MCTS.ancestorsAux t fuel i := by
  intro fuel
  induction fuel with
  | zero => intro i hm; rfl
  | succ fuel ih =>
    intro i hm
    rw [MCTS.ancestorsAux, MCTS.ancestorsAux, hm i (le_refl i)]
    rcases hp : (t.node i).parent with _ | j
    · rfl
    · show i :: (if j < i then MCTS.ancestorsAux t2 fuel j else []) =
        i :: (if j < i then MCTS.ancestorsAux t fuel j else [])
      by_cases hj : j < i
      · rw [if_pos hj, if_pos hj,
          ih j (fun m hmj => hm m (le_of_lt (lt_of_le_of_lt hmj hj)))]
      · rw [if_neg hj, if_neg hj]

/-- Helper: the ancestor chain is independent of the fuel once the fuel
exceeds the start index. -/
theorem ancestorsAux_fuel {A : Type} (t : SearchTree A) :
    ∀ fuel1 fuel2 i, i < fuel1 → i < fuel2 →
      MCTS.ancestorsAux t fuel1 i = MCTS.ancestorsAux t fuel2 i := by
  intro fuel1
  induction fuel1 with
  | zero => intro fuel2 i h1; omega
  | succ fuel1 ih =>
    intro fuel2 i h1 h2
    cases fuel2 with
    | zero => omega
    | succ fuel2 =>
      rw [MCTS.ancestorsAux, MCTS.ancestorsAux]
      rcases hp : (t.node i).parent with _ | j
      · rfl
      · show i :: (if j < i then MCTS.ancestorsAux t fuel1 j else []) =
          i :: (if j < i then MCTS.ancestorsAux t fuel2 j else [])
        by_cases hj : j < i
        · rw [if_pos hj, if_pos hj, ih fuel2 j (by omega) (by omega)]
        · rw [if_neg hj, if_neg hj]

/-- Helper: a statistics-only node update preserves size and every
non-statistics field of every node. -/
theorem modify_stats_pres {A : Type} (t : SearchTree A) (i : Nat) (r : ℚ) :
    (t.modifyNode i (fun x =>
      { x with visits := x.visits + 1, total_score := x.total_score + r })).size
        = t.size ∧
    ∀ j, ((t.modifyNode i (fun x =>
        { x with visits := x.visits + 1, total_score := x.total_score + r })).node j).parent
          = (t.node j).parent ∧
      ((t.modifyNode i (fun x =>
        { x with visits := x.visits + 1, total_score := x.total_score + r })).node j).children
          = (t.node j).children ∧
      ((t.modifyNode i (fun x =>
        { x with visits := x.visits + 1, total_score := x.total_score + r })).node j).untried_actions
          = (t.node j).untried_actions ∧
      ((t.modifyNode i (fun x =>
        { x with visits := x.visits + 1, total_score := x.total_score + r })).node j).action_from_parent
          = (t.node j).action_from_parent := by
  refine ⟨size_modify t i _, fun j => ?_⟩
  rw [node_modify]
  split
  · rename_i hij
    obtain ⟨rfl, -⟩ := hij
    exact ⟨rfl, rfl, rfl, rfl⟩
  · exact ⟨rfl, rfl, rfl, rfl⟩

/-- Helper: backpropagation preserves size and every non-statistics field of
every node, for any fuel. -/
theorem backpropAux_pres {A : Type} :
    ∀ fuel (t : SearchTree A) (i : Nat) (r : ℚ),
    (MCTS.backpropAux fuel t i r).size = t.size ∧
    ∀ j, ((MCTS.backpropAux fuel t i r).node j).parent = (t.node j).parent ∧
      ((MCTS.backpropAux fuel t i r).node j).children = (t.node j).children ∧
      ((MCTS.backpropAux fuel t i r).node j).untried_actions
        = (t.node j).untried_actions ∧
      ((MCTS.backpropAux fuel t i r).node j).action_from_parent
        = (t.node j).action_from_parent := by
  intro fuel
  induction fuel with
  | zero => exact fun t i r => ⟨rfl, fun j => ⟨rfl, rfl, rfl, rfl⟩⟩
  | succ fuel ih =>
    intro t i r
    have hm := modify_stats_pres t i r
    rcases hp : (t.node i).parent with _ | jp
    · have hres : MCTS.backpropAux (fuel + 1) t i r
          = t.modifyNode i (fun x =>
              { x with visits := x.visits + 1, total_score := x.total_score + r }) := by
        rw [MCTS.backpropAux, hp]
      rw [hres]
      exact ⟨hm.1, fun j => hm.2 j⟩
    · have hres : MCTS.backpropAux (fuel + 1) t i r
          = if jp < i then
              MCTS.backpropAux fuel (t.modifyNode i (fun x =>
                { x with visits := x.visits + 1, total_score := x.total_score + r })) jp r
            else t.modifyNode i (fun x =>
                { x with visits := x.visits + 1, total_score := x.total_score + r }) := by
        rw [MCTS.backpropAux, hp]
      by_cases hj : jp < i
      · rw [hres, if_pos hj]
        have hb := ih (t.modifyNode i (fun x =>
          { x with visits := x.visits + 1, total_score := x.total_score + r })) jp r
        refine ⟨hb.1.trans hm.1, fun j => ?_⟩
        obtain ⟨b1, b2, b3, b4⟩ := hb.2 j
        obtain ⟨m1, m2, m3, m4⟩ := hm.2 j
        exact ⟨b1.trans m1, b2.trans m2, b3.trans m3, b4.trans m4⟩
      · rw [hres, if_neg hj]
        exact ⟨hm.1, fun j => hm.2 j⟩

/-- Helper: full characterisation of `backpropAux` on its statistics: every
node on the walked ancestor chain gains exactly one visit and the result,
with all other fields intact; every node off the chain is untouched. -/
theorem backpropAux_spec {A : Type} :
    ∀ fuel (t : SearchTree A) (i : Nat) (r : ℚ), i < fuel → i < t.size →
    ∀ j, (j ∈ MCTS.ancestorsAux t fuel i →
        (MCTS.backpropAux fuel t i r).node j =
          { t.node j with visits := (t.node j).visits + 1,
                          total_score := (t.node j).total_score + r }) ∧
      (j ∉ MCTS.ancestorsAux t fuel i →
        (MCTS.backpropAux fuel t i r).node j = t.node j) := by
  intro fuel
  induction fuel with
  | zero => intro t i r hf; omega
  | succ fuel ih =>
    intro t i r hf hi j
    have hanc : MCTS.ancestorsAux t (fuel + 1) i
        = i :: (match (t.node i).parent with
                | none => []
                | some jp => if jp < i then MCTS.ancestorsAux t fuel jp else []) := by
      rw [MCTS.ancestorsAux]
    rcases hp : (t.node i).parent with _ | jp
    · have hres : MCTS.backpropAux (fuel + 1) t i r
          = t.modifyNode i (fun x =>
              { x with visits := x.visits + 1, total_score := x.total_score + r }) := by
        rw [MCTS.backpropAux, hp]
      have hanc2 : MCTS.ancestorsAux t (fuel + 1) i = [i] := by rw [hanc, hp]
      rw [hres, hanc2]
      constructor
      · intro hmem
        have : j = i := by simpa using hmem
        subst this
        rw [node_modify, if_pos ⟨rfl, hi⟩]
      · intro hmem
        have hji : ¬ (i = j) := fun h => hmem (by simp [h])
        rw [node_modify, if_neg (fun hcon => hji hcon.1)]
    · have hres : MCTS.backpropAux (fuel + 1) t i r
          = if jp < i then
              MCTS.backpropAux fuel (t.modifyNode i (fun x =>
                { x with visits := x.visits + 1, total_score := x.total_score + r })) jp r
            else t.modifyNode i (fun x =>
                { x with visits := x.visits + 1, total_score := x.total_score + r }) := by
        rw [MCTS.backpropAux, hp]
      have hanc2 : MCTS.ancestorsAux t (fuel + 1) i
          = i :: (if jp < i then MCTS.ancestorsAux t fuel jp else []) := by
        rw [hanc, hp]
      by_cases hj : jp < i
      · rw [hres, if_pos hj]
        rw [hanc2, if_pos hj]
        have hm := modify_stats_pres t i r
        have hcongr : MCTS.ancestorsAux (t.modifyNode i (fun x =>
            { x with visits := x.visits + 1, total_score := x.total_score + r })) fuel jp
            = MCTS.ancestorsAux t fuel jp :=
          ancestorsAux_congr t _ fuel jp (fun m _ => (hm.2 m).1)
        have hIH := ih (t.modifyNode i (fun x =>
          { x with visits := x.visits + 1, total_score := x.total_score + r })) jp r
          (by omega) (by rw [hm.1]; omega) j
        constructor
        · intro hmem
          rcases List.mem_cons.mp hmem with rfl | htail
          · have hnot : j ∉ MCTS.ancestorsAux (t.modifyNode j (fun x =>
                { x with visits := x.visits + 1, total_score := x.total_score + r })) fuel jp := by
              rw [hcongr]
              intro hc
              have := ancestorsAux_le t fuel jp j hc
              omega
            rw [hIH.2 hnot, node_modify, if_pos ⟨rfl, hi⟩]
          · have hji : j ≠ i := by
              have := ancestorsAux_le t fuel jp j htail
              omega
            have hmem1 : j ∈ MCTS.ancestorsAux (t.modifyNode i (fun x =>
                { x with visits := x.visits + 1, total_score := x.total_score + r })) fuel jp := by
              rw [hcongr]
              exact htail
            rw [hIH.1 hmem1, node_modify, if_neg (fun hcon => hji hcon.1.symm)]
        · intro hmem
          have hji : ¬ (i = j) := fun h => hmem (by simp [h])
          have htail : j ∉ MCTS.ancestorsAux (t.modifyNode i (fun x =>
              { x with visits := x.visits + 1, total_score := x.total_score + r })) fuel jp := by
            rw [hcongr]
            intro hc
            exact hmem (List.mem_cons_of_mem _ hc)
          rw [hIH.2 htail, node_modify, if_neg (fun hcon => hji hcon.1)]
      · rw [hres, if_neg hj]
        rw [hanc2, if_neg hj]
        constructor
        · intro hmem
          have : j = i := by simpa using hmem
          subst this
          rw [node_modify, if_pos ⟨rfl, hi⟩]
        · intro hmem
          have hji : ¬ (i = j) := fun h => hmem (by simp [h])
          rw [node_modify, if_neg (fun hcon => hji hcon.1)]

/-- Helper: on a well-formed arena the ancestor chain of any node reaches
the root. -/
theorem wf_zero_mem_ancestors {A : Type} (t : SearchTree A) (h : MCTS.WF t) :
    ∀ i, i < t.size → 0 ∈ MCTS.ancestors t i := by
  intro i
  induction i using Nat.strong_induction_on with
  | _ i ih =>
    intro hi
    by_cases h0 : i = 0
    · subst h0
      rw [MCTS.ancestors, MCTS.ancestorsAux]
      exact List.mem_cons_self _ _
    · obtain ⟨hsz, hnodes⟩ := h
      obtain ⟨hiff, hlt, -⟩ := hnodes i hi
      rcases hp : (t.node i).parent with _ | j
      · exact absurd (hiff.mp hp) h0
      · have hj : j < i := hlt j hp
        have hmem : 0 ∈ MCTS.ancestors t j := ih j hj (lt_trans hj hi)
        have hanc : MCTS.ancestors t i
            = i :: (if j < i then MCTS.ancestorsAux t i j else []) := by
          rw [MCTS.ancestors, MCTS.ancestorsAux, hp]
        rw [hanc, if_pos hj]
        refine List.mem_cons_of_mem _ ?_
        rw [ancestorsAux_fuel t i (j + 1) j hj (Nat.lt_succ_self j)]
        exact hmem

/-- Helper: characterisation of `backpropagate` in terms of the ancestor
chain. -/
theorem backpropagate_spec {A : Type} (t : SearchTree A) (i : Nat) (r : ℚ)
    (hi : i < t.size) :
    ∀ j, (j ∈ MCTS.ancestors t i →
        (MCTS.backpropagate t i r).node j =
          { t.node j with visits := (t.node j).visits + 1,
                          total_score := (t.node j).total_score + r }) ∧
      (j ∉ MCTS.ancestors t i →
        (MCTS.backpropagate t i r).node j = t.node j) :=
  backpropAux_spec (i + 1) t i r (Nat.lt_succ_self i) hi

/-- Helper: `backpropagate` preserves size and all non-statistics fields. -/
theorem backpropagate_pres {A : Type} (t : SearchTree A) (i : Nat) (r : ℚ) :
    (MCTS.backpropagate t i r).size = t.size ∧
    ∀ j, ((MCTS.backpropagate t i r).node j).parent = (t.node j).parent ∧
      ((MCTS.backpropagate t i r).node j).children = (t.node j).children ∧
      ((MCTS.backpropagate t i r).node j).untried_actions
        = (t.node j).untried_actions ∧
      ((MCTS.backpropagate t i r).node j).action_from_parent
        = (t.node j).action_from_parent :=
  backpropAux_pres (i + 1) t i r

/-- Helper: `backpropagate` preserves well-formedness. -/
theorem backpropagate_wf {A : Type} (t : SearchTree A) (i : Nat) (r : ℚ)
    (h : MCTS.WF t) : MCTS.WF (MCTS.backpropagate t i r) :=
  WF_of_same_structure t _ (backpropagate_pres t i r).1
    (fun j => ((backpropagate_pres t i r).2 j).1)
    (fun j => ((backpropagate_pres t i r).2 j).2.1) h

/-- Helper: on a well-formed arena `backpropagate` increments the root's
visit count by exactly one. -/
theorem backpropagate_root_visits {A : Type} (t : SearchTree A) (i : Nat)
    (r : ℚ) (hwf : MCTS.WF t) (hi : i < t.size) :
    ((MCTS.backpropagate t i r).node 0).visits = (t.node 0).visits + 1 := by
  rw [(backpropagate_spec t i r hi 0).1 (wf_zero_mem_ancestors t hwf i hi)]

/-- Helper: `is_fully_expanded` preserves size, all fields except the
untried cache, and every already-populated untried cache. -/
theorem is_fully_expanded_pres {S A C : Type} (g : Game S A C)
    (t : SearchTree A) (n : Nat) (s : S) :
    (MCTS.is_fully_expanded g t n s).1.size = t.size ∧
    (∀ j, ((MCTS.is_fully_expanded g t n s).1.node j).parent = (t.node j).parent ∧
      ((MCTS.is_fully_expanded g t n s).1.node j).children = (t.node j).children ∧
      ((MCTS.is_fully_expanded g t n s).1.node j).visits = (t.node j).visits ∧
      ((MCTS.is_fully_expanded g t n s).1.node j).total_score = (t.node j).total_score ∧
      ((MCTS.is_fully_expanded g t n s).1.node j).action_from_parent
        = (t.node j).action_from_parent) ∧
    (∀ j u, (t.node j).untried_actions = some u →
      ((MCTS.is_fully_expanded g t n s).1.node j).untried_actions = some u) := by
  rcases hc : (t.node n).untried_actions with _ | u
  · have hres : (MCTS.is_fully_expanded g t n s).1
        = t.modifyNode n (fun x =>
            { x with untried_actions := some (MCTS.untriedInit g (t.node n) s) }) := by
      rw [MCTS.is_fully_expanded, hc]
    rw [hres]
    refine ⟨size_modify t n _, fun j => ?_, fun j u hu => ?_⟩
    · rw [node_modify]
      split
      · rename_i hij
        obtain ⟨rfl, -⟩ := hij
        exact ⟨rfl, rfl, rfl, rfl, rfl⟩
      · exact ⟨rfl, rfl, rfl, rfl, rfl⟩
    · rw [node_modify]
      split
      · rename_i hij
        obtain ⟨rfl, -⟩ := hij
        rw [hc] at hu
        exact absurd hu (by simp)
      · exact hu
  · have hres : (MCTS.is_fully_expanded g t n s).1 = t := by
      rw [MCTS.is_fully_expanded, hc]
    rw [hres]
    exact ⟨rfl, fun j => ⟨rfl, rfl, rfl, rfl, rfl⟩, fun j u hu => hu⟩

/-- Helper: the index returned by `best_uct_child` comes from a children
entry of the node. -/
theorem best_uct_child_mem {S A C : Type} (g : Game S A C) (t : SearchTree A)
    (n : Nat) (s : S) (c : Nat) (h : MCTS.best_uct_child g t n s = some c) :
    ∃ e ∈ (t.node n).children, c = e.idx := by
  rcases hv : (t.node n).children.filter (fun e => (g.to_action e.act s).isSome) with
    _ | ⟨v0, vs⟩
  · rw [MCTS.best_uct_child] at h
    rw [hv] at h
    rcases hh : (t.node n).children with _ | ⟨e0, es⟩
    · rw [hh] at h
      simp at h
    · rw [hh] at h
      have h2 : e0.idx = c := by simpa using h
      exact ⟨e0, List.mem_cons_self _ _, h2.symm⟩
  · rw [MCTS.best_uct_child] at h
    rw [hv] at h
    obtain ⟨e, he, hei⟩ := Option.map_eq_some.mp h
    obtain ⟨hmem, -⟩ := argmaxBy_spec _ _ _ he
    rw [← hv] at hmem
    exact ⟨e, (List.mem_filter.mp hmem).1, hei.symm⟩

/-- Helper: selection preserves arena size, every statistics field, parents,
children, populated untried caches, and (on well-formed arenas) returns an
in-range node index. -/
theorem selectAux_pres {S A C : Type} (g : Game S A C) :
    ∀ fuel (t : SearchTree A) (n : Nat) (s : S),
    (MCTS.selectAux g fuel t n s).1.size = t.size ∧
    (∀ j, ((MCTS.selectAux g fuel t n s).1.node j).parent = (t.node j).parent ∧
      ((MCTS.selectAux g fuel t n s).1.node j).children = (t.node j).children ∧
      ((MCTS.selectAux g fuel t n s).1.node j).visits = (t.node j).visits ∧
      ((MCTS.selectAux g fuel t n s).1.node j).total_score = (t.node j).total_score ∧
      ((MCTS.selectAux g fuel t n s).1.node j).action_from_parent
        = (t.node j).action_from_parent) ∧
    (∀ j u, (t.node j).untried_actions = some u →
      ((MCTS.selectAux g fuel t n s).1.node j).untried_actions = some u) ∧
    (MCTS.WF t → n < t.size → (MCTS.selectAux g fuel t n s).2.1 < t.size) := by
  intro fuel
  induction fuel with
  | zero =>
    intro t n s
    exact ⟨rfl, fun j => ⟨rfl, rfl, rfl, rfl, rfl⟩, fun j u hu => hu,
      fun _ hn => hn⟩
  | succ fuel ih =>
    intro t n s
    have hife := is_fully_expanded_pres g t n s
    have hwf1 : MCTS.WF t → MCTS.WF (MCTS.is_fully_expanded g t n s).1 :=
      WF_of_same_structure t _ hife.1 (fun j => (hife.2.1 j).1)
        (fun j => (hife.2.1 j).2.1)
    rw [MCTS.selectAux]
    split
    · split
      · rename_i c hb
        have hclt : MCTS.WF t → n < t.size →
            c < (MCTS.is_fully_expanded g t n s).1.size := by
          intro hwf hn
          obtain ⟨e, hmem, rfl⟩ :=
            best_uct_child_mem g (MCTS.is_fully_expanded g t n s).1 n s c hb
          rw [(hife.2.1 n).2.1] at hmem
          rw [hife.1]
          exact (hwf.2 n hn).2.2 e hmem
        split
        · rename_i a ha
          have hrec := ih (MCTS.is_fully_expanded g t n s).1 c (g.step s a)
          refine ⟨hrec.1.trans hife.1, fun j => ?_, fun j u hu => ?_, ?_⟩
          · obtain ⟨r1, r2, r3, r4, r5⟩ := hrec.2.1 j
            obtain ⟨i1, i2, i3, i4, i5⟩ := hife.2.1 j
            exact ⟨r1.trans i1, r2.trans i2, r3.trans i3, r4.trans i4, r5.trans i5⟩
          · exact hrec.2.2.1 j u (hife.2.2 j u hu)
          · intro hwf hn
            rw [← hife.1]
            exact hrec.2.2.2 (hwf1 hwf) (hclt hwf hn)
        · refine ⟨hife.1, hife.2.1, hife.2.2, fun hwf hn => ?_⟩
          rw [← hife.1]
          exact hclt hwf hn
      · exact ⟨hife.1, hife.2.1, hife.2.2, fun _ hn => hn⟩
    · exact ⟨hife.1, hife.2.1, hife.2.2, fun _ hn => hn⟩

/-- Helper: out-of-range arena reads yield the dummy node. -/
theorem node_oob {A : Type} (t : SearchTree A) (j : Nat) (h : t.size ≤ j) :
    t.node j = dummyNode := by
  simp only [SearchTree.node, List.getD_eq_getElem?_getD]
  rw [List.getElem?_eq_none h]
  rfl

/-- Helper: the result of `expand` when every popped action is invalid. -/
theorem expand_eq_none {S A C : Type} (g : Game S A C) (t : SearchTree A)
    (n : Nat) (s : S) (rem : List A)
    (hp : MCTS.popFirstValid g s (MCTS.effectiveUntried g (t.node n) s).reverse
      = (rem, none)) :
    MCTS.expand g t n s
      = (t.modifyNode n (fun x => { x with untried_actions := some rem.reverse }), n) := by
  simp only [MCTS.expand, hp]

/-- Helper: the result of `expand` when popping finds the valid action `a`. -/
theorem expand_eq_some {S A C : Type} (g : Game S A C) (t : SearchTree A)
    (n : Nat) (s : S) (rem : List A) (a : A)
    (hp : MCTS.popFirstValid g s (MCTS.effectiveUntried g (t.node n) s).reverse
      = (rem, some a)) :
    MCTS.expand g t n s
      = ((SearchTree.mk
            ((t.modifyNode n (fun x => { x with untried_actions := some rem.reverse })).nodes
              ++ [{ children := [], parent := some n, param := (t.node n).param,
                    visits := 0, total_score := 0, untried_actions := none,
                    action_from_parent := some a }])).modifyNode n
            (fun x => { x with children := insertEntry x.children (ChildEntry.mk (g.keyOf a) a (t.modifyNode n (fun y => { y with untried_actions := some rem.reverse })).size) }),
          (t.modifyNode n (fun x =>
            { x with untried_actions := some rem.reverse })).size) := by
  simp only [MCTS.expand, hp]

/-- Helper: expansion can only grow the arena, returns an in-range node
index, preserves the statistics of all pre-existing nodes, gives any new
node zero statistics, and preserves well-formedness. -/
theorem expand_pres {S A C : Type} (g : Game S A C) (t : SearchTree A)
    (n : Nat) (s : S) (hn : n < t.size) :
    t.size ≤ (MCTS.expand g t n s).1.size ∧
    (MCTS.expand g t n s).2 < (MCTS.expand g t n s).1.size ∧
    (∀ j, j < t.size →
      ((MCTS.expand g t n s).1.node j).visits = (t.node j).visits ∧
      ((MCTS.expand g t n s).1.node j).total_score = (t.node j).total_score) ∧
    (∀ j, t.size ≤ j →
      ((MCTS.expand g t n s).1.node j).visits = 0 ∧
      ((MCTS.expand g t n s).1.node j).total_score = 0) ∧
    (MCTS.WF t → MCTS.WF (MCTS.expand g t n s).1) := by
  rcases hp : MCTS.popFirstValid g s (MCTS.effectiveUntried g (t.node n) s).reverse with
    ⟨rem, o⟩
  cases o with
  | none =>
    rw [expand_eq_none g t n s rem hp]
    refine ⟨le_of_eq (size_modify t n _).symm, ?_, ?_, ?_, ?_⟩
    · rw [size_modify]
      exact hn
    · intro j hj
      rw [node_modify]
      split
      · rename_i hij
        obtain ⟨rfl, -⟩ := hij
        exact ⟨rfl, rfl⟩
      · exact ⟨rfl, rfl⟩
    · intro j hj
      have hne : ¬ (n = j ∧ n < t.size) := by
        rintro ⟨rfl, -⟩
        omega
      rw [node_modify, if_neg hne, node_oob t j hj]
      exact ⟨rfl, rfl⟩
    · intro hwf
      refine WF_of_same_structure t _ (size_modify t n _) (fun j => ?_) (fun j => ?_) hwf <;>
        rw [node_modify] <;> split
      · rename_i hij
        obtain ⟨rfl, -⟩ := hij
        rfl
      · rfl
      · rename_i hij
        obtain ⟨rfl, -⟩ := hij
        rfl
      · rfl
  | some a =>
    rw [expand_eq_some g t n s rem a hp]
    have h1size : (t.modifyNode n (fun x =>
        { x with untried_actions := some rem.reverse })).size = t.size :=
      size_modify t n _
    have h1node : ∀ j, ((t.modifyNode n (fun x =>
        { x with untried_actions := some rem.reverse })).node j).parent
          = (t.node j).parent ∧
        ((t.modifyNode n (fun x =>
          { x with untried_actions := some rem.reverse })).node j).children
          = (t.node j).children ∧
        ((t.modifyNode n (fun x =>
          { x with untried_actions := some rem.reverse })).node j).visits
          = (t.node j).visits ∧
        ((t.modifyNode n (fun x =>
          { x with untried_actions := some rem.reverse })).node j).total_score
          = (t.node j).total_score := by
      intro j
      rw [node_modify]
      split
      · rename_i hij
        obtain ⟨rfl, -⟩ := hij
        exact ⟨rfl, rfl, rfl, rfl⟩
      · exact ⟨rfl, rfl, rfl, rfl⟩
    have h2size : (SearchTree.mk
        ((t.modifyNode n (fun x =>
          { x with untried_actions := some rem.reverse })).nodes
          ++ [{ children := [], parent := some n, param := (t.node n).param,
                visits := 0, total_score := 0, untried_actions := none,
                action_from_parent := some a }])).size = t.size + 1 := by
      rw [size_append, h1size]
    have h3size : ((SearchTree.mk
        ((t.modifyNode n (fun x =>
          { x with untried_actions := some rem.reverse })).nodes
          ++ [{ children := [], parent := some n, param := (t.node n).param,
                visits := 0, total_score := 0, untried_actions := none,
                action_from_parent := some a }])).modifyNode n
          (fun x => { x with children := insertEntry x.children (ChildEntry.mk (g.keyOf a) a (t.modifyNode n (fun y => { y with untried_actions := some rem.reverse })).size) })).size
        = t.size + 1 := by
      rw [size_modify, h2size]
    refine ⟨by rw [h3size]; omega, by rw [h3size, h1size]; omega, ?_, ?_, ?_⟩
    · intro j hj
      rw [node_modify, h2size]
      have hfact : ((SearchTree.mk
          ((t.modifyNode n (fun x =>
            { x with untried_actions := some rem.reverse })).nodes
            ++ [{ children := [], parent := some n, param := (t.node n).param,
                  visits := 0, total_score := 0, untried_actions := none,
                  action_from_parent := some a }])).node j)
          = (t.modifyNode n (fun x =>
              { x with untried_actions := some rem.reverse })).node j := by
        rw [node_append, h1size, if_pos hj]
      split
      · rename_i hij
        obtain ⟨rfl, -⟩ := hij
        rw [hfact]
        exact ⟨(h1node n).2.2.1, (h1node n).2.2.2⟩
      · rw [hfact]
        exact ⟨(h1node j).2.2.1, (h1node j).2.2.2⟩
    · intro j hj
      have hne : ¬ (n = j ∧ n < t.size + 1) := by
        rintro ⟨rfl, -⟩
        omega
      rw [node_modify, h2size, if_neg hne, node_append, h1size]
      by_cases hj2 : j < t.size
      · omega
      · rw [if_neg hj2]
        by_cases hj3 : j = t.size
        · rw [if_pos hj3]
          exact ⟨rfl, rfl⟩
        · rw [if_neg hj3]
          exact ⟨rfl, rfl⟩
    · intro hwf
      obtain ⟨hsz, hnodes⟩ := hwf
      refine ⟨by rw [h3size]; omega, ?_⟩
      intro i hi
      rw [h3size] at hi
      rw [node_modify, h2size]
      have hread : ∀ m, ((SearchTree.mk
          ((t.modifyNode n (fun x =>
            { x with untried_actions := some rem.reverse })).nodes
            ++ [{ children := [], parent := some n, param := (t.node n).param,
                  visits := 0, total_score := 0, untried_actions := none,
                  action_from_parent := some a }])).node m)
          = if m < t.size then (t.modifyNode n (fun x =>
              { x with untried_actions := some rem.reverse })).node m
            else if m = t.size then
              { children := [], parent := some n, param := (t.node n).param,
                visits := 0, total_score := 0, untried_actions := none,
                action_from_parent := some a }
            else dummyNode := by
        intro m
        rw [node_append, h1size]
      by_cases hin : n = i ∧ n < t.size + 1
      · rw [if_pos hin]
        obtain ⟨rfl, -⟩ := hin
        rw [hread, if_pos hn]
        obtain ⟨hiff, hlt, hch⟩ := hnodes n hn
        refine ⟨?_, ?_, ?_⟩
        · rw [(h1node n).1]
          exact hiff
        · intro j hj
          rw [(h1node n).1] at hj
          exact hlt j hj
        · intro e he
          simp only at he
          rcases insertEntry_mem _ _ _ he with hmem | rfl
          · rw [(h1node n).2.1] at hmem
            have := hch e hmem
            simp only [size_modify, size_append]
            omega
          · simp only [size_modify, size_append]
            omega
      · rw [if_neg hin]
        rw [hread]
        by_cases hi2 : i < t.size
        · rw [if_pos hi2]
          obtain ⟨hiff, hlt, hch⟩ := hnodes i hi2
          refine ⟨?_, ?_, ?_⟩
          · rw [(h1node i).1]
            exact hiff
          · intro j hj
            rw [(h1node i).1] at hj
            exact hlt j hj
          · intro e he
            rw [(h1node i).2.1] at he
            have := hch e he
            rw [h3size]
            omega
        · have hi3 : i = t.size := by omega
          rw [if_neg hi2, if_pos hi3]
          refine ⟨?_, ?_, ?_⟩
          · constructor
            · intro hcon
              simp at hcon
            · intro hcon
              omega
          · intro j hj
            simp only [Option.some.injEq] at hj
            omega
          · intro e he
            simp at he

/-- Helper: one full search step on a well-formed arena keeps it well formed
and increments the root's visit count by exactly one (whichever of the
selection-terminal or expansion paths was taken, the backpropagation walks
to the root). -/
theorem step_pres {S A C : Type} (g : Game S A C) (t : SearchTree A) (s : S)
    (r : Rng) (hwf : MCTS.WF t) :
    MCTS.WF (MCTS.step g t s r).1 ∧
    ((MCTS.step g t s r).1.node 0).visits = (t.node 0).visits + 1 := by
  have hsel := selectAux_pres g t.size t 0 s
  have hwfsel : MCTS.WF (MCTS.selectAux g t.size t 0 s).1 :=
    WF_of_same_structure t _ hsel.1 (fun j => (hsel.2.1 j).1)
      (fun j => (hsel.2.1 j).2.1) hwf
  have hidx : (MCTS.selectAux g t.size t 0 s).2.1
      < (MCTS.selectAux g t.size t 0 s).1.size := by
    rw [hsel.1]
    exact hsel.2.2.2 hwf hwf.1
  have hroot0 : ((MCTS.selectAux g t.size t 0 s).1.node 0).visits
      = (t.node 0).visits :=
    (hsel.2.1 0).2.2.1
  simp only [MCTS.step, MCTS.selectExpand, MCTS.select]
  split
  · exact ⟨backpropagate_wf _ _ _ hwfsel,
      by rw [backpropagate_root_visits _ _ _ hwfsel hidx, hroot0]⟩
  · have hexp := expand_pres g (MCTS.selectAux g t.size t 0 s).1
      (MCTS.selectAux g t.size t 0 s).2.1 (MCTS.selectAux g t.size t 0 s).2.2 hidx
    have hwfexp : MCTS.WF (MCTS.expand g (MCTS.selectAux g t.size t 0 s).1
        (MCTS.selectAux g t.size t 0 s).2.1 (MCTS.selectAux g t.size t 0 s).2.2).1 :=
      hexp.2.2.2.2 hwfsel
    constructor
    · exact backpropagate_wf _ _ _ hwfexp
    · rw [backpropagate_root_visits _ _ _ hwfexp hexp.2.1,
        (hexp.2.2.1 0 hwfsel.1).1, hroot0]

/-- Helper: the iteration loop on a well-formed arena keeps it well formed
and adds exactly one root visit per iteration. -/
theorem runIters_pres {S A C : Type} (g : Game S A C) (s : S) :
    ∀ N (t : SearchTree A) (r : Rng), MCTS.WF t →
      MCTS.WF (MCTS.runIters g s N t r).1 ∧
      ((MCTS.runIters g s N t r).1.node 0).visits = (t.node 0).visits + N := by
  intro N
  induction N with
  | zero =>
    intro t r hwf
    exact ⟨hwf, rfl⟩
  | succ N ih =>
    intro t r hwf
    rw [MCTS.runIters]
    obtain ⟨hw1, hv1⟩ :=
      step_pres g t (g.copy_undet s (Rng.next r).1) (Rng.next r).2 hwf
    obtain ⟨hw2, hv2⟩ :=
      ih (MCTS.step g t (g.copy_undet s (Rng.next r).1) (Rng.next r).2).1
        (MCTS.step g t (g.copy_undet s (Rng.next r).1) (Rng.next r).2).2 hw1
    refine ⟨hw2, ?_⟩
    rw [hv2, hv1]
    omega

/-- C2: after the decision driver's loop completes N iterations (each
drawing a fresh undeterministic sample and running `TreeNode.step` once on
the fresh root), the root's visit count equals exactly N: every iteration's
backpropagation path includes the root. -/
theorem root_visits_eq_iterations {S A C : Type} (g : Game S A C) (p : ℚ)
    (s : S) (r : Rng) (N : Nat) :
    ((MCTS.runIters g s N (MCTS.initTree A p) r).1.node 0).visits = N := by
  rw [(runIters_pres g s N (MCTS.initTree A p) r (wf_initTree p)).2]
  show 0 + N = N
  exact Nat.zero_add N

/-- Helper: characterisation of the popping loop: either everything was
invalid and consumed, or the list splits at the first valid action (in pop
order), with everything popped before it invalid. -/
theorem popFirstValid_spec {S A C : Type} (g : Game S A C) (s : S) :
    ∀ (m m2 : List A) (res : Option A),
    MCTS.popFirstValid g s m = (m2, res) →
    (res = none ∧ m2 = [] ∧ ∀ a ∈ m, g.to_action a s = none) ∨
    (∃ pre a post, m = pre ++ a :: post ∧ (∀ b ∈ pre, g.to_action b s = none) ∧
      (g.to_action a s).isSome = true ∧ res = some a ∧ m2 = post) := by
  intro m
  induction m with
  | nil =>
    intro m2 res h
    rw [MCTS.popFirstValid] at h
    obtain ⟨h1, h2⟩ := Prod.mk.injEq .. ▸ h
    left
    exact ⟨(Prod.mk.injEq .. ▸ h).2.symm, (Prod.mk.injEq .. ▸ h).1.symm, by simp⟩
  | cons b rest ih =>
    intro m2 res h
    rw [MCTS.popFirstValid] at h
    by_cases hb : (g.to_action b s).isSome = true
    · rw [if_pos hb] at h
      right
      refine ⟨[], b, rest, by simp, by simp, hb, ?_, ?_⟩
      · exact ((Prod.mk.injEq .. ▸ h).2).symm
      · exact ((Prod.mk.injEq .. ▸ h).1).symm
    · rw [if_neg hb] at h
      rcases ih m2 res h with ⟨h1, h2, h3⟩ | ⟨pre, a, post, h1, h2, h3, h4, h5⟩
      · left
        refine ⟨h1, h2, fun a ha => ?_⟩
        rcases List.mem_cons.mp ha with rfl | ha2
        · exact Option.not_isSome_iff_eq_none.mp hb
        · exact h3 a ha2
      · right
        refine ⟨b :: pre, a, post, by rw [h1]; rfl, fun c hc => ?_, h3, h4, h5⟩
        rcases List.mem_cons.mp hc with rfl | hc2
        · exact Option.not_isSome_iff_eq_none.mp hb
        · exact h2 c hc2

/-- Helper: after an expansion at node `n`, the untried cache of `n` is a
prefix of what it was. -/
theorem expand_cache {S A C : Type} (g : Game S A C) (t : SearchTree A)
    (n : Nat) (s : S) (l : List A) (hn : n < t.size)
    (hc : (t.node n).untried_actions = some l) :
    ∃ k, ((MCTS.expand g t n s).1.node n).untried_actions = some (l.take k) := by
  have heff : MCTS.effectiveUntried g (t.node n) s = l := by
    rw [MCTS.effectiveUntried, hc]
  rcases hres : MCTS.popFirstValid g s (MCTS.effectiveUntried g (t.node n) s).reverse
    with ⟨rem, o⟩
  cases o with
  | none =>
    rw [expand_eq_none g t n s rem hres]
    rcases popFirstValid_spec g s _ _ _ hres with ⟨-, h2, -⟩ |
      ⟨pre2, a2, post2, -, -, -, hcon, -⟩
    · refine ⟨0, ?_⟩
      rw [node_modify, if_pos ⟨rfl, hn⟩]
      simp [h2]
    · exact absurd hcon (by simp)
  | some a =>
    rw [expand_eq_some g t n s rem a hres]
    rcases popFirstValid_spec g s _ _ _ hres with ⟨hcon, -, -⟩ |
      ⟨pre, a2, post, h1, h2, h3, h4, h5⟩
    · exact absurd hcon (by simp)
    · refine ⟨post.length, ?_⟩
      have hsplit : l = post.reverse ++ a2 :: pre.reverse := by
        have := congrArg List.reverse h1
        rw [heff] at this
        simpa [List.reverse_append] using this
      have htake : l.take post.length = post.reverse := by
        rw [hsplit]
        have : post.length = post.reverse.length := (List.length_reverse post).symm
        rw [this, List.take_left]
      rw [node_modify]
      rw [if_pos ⟨rfl, by rw [size_append, size_modify]; omega⟩]
      simp only
      rw [node_append, size_modify, if_pos hn, node_modify, if_pos ⟨rfl, hn⟩]
      rw [htake]
      have hrem : rem = post := h5
      rw [hrem]

/-- Helper: an expansion at node `n` does not touch the untried cache of any
other pre-existing node. -/
theorem expand_cache_other {S A C : Type} (g : Game S A C) (t : SearchTree A)
    (n : Nat) (s : S) (m : Nat) (hm : m < t.size) (hne : n ≠ m) :
    ((MCTS.expand g t n s).1.node m).untried_actions
      = (t.node m).untried_actions := by
  rcases hres : MCTS.popFirstValid g s (MCTS.effectiveUntried g (t.node n) s).reverse
    with ⟨rem, o⟩
  cases o with
  | none =>
    rw [expand_eq_none g t n s rem hres, node_modify,
      if_neg (fun hcon => hne hcon.1)]
  | some a =>
    rw [expand_eq_some g t n s rem a hres, node_modify]
    rw [if_neg (fun hcon => hne hcon.1)]
    rw [node_append, size_modify, if_pos hm, node_modify,
      if_neg (fun hcon => hne hcon.1)]

/-- Helper: across one whole search step, the untried cache of a node that
already had a populated cache shrinks to a prefix of its old value. -/
theorem step_cache_prefix {S A C : Type} (g : Game S A C) (t : SearchTree A)
    (s : S) (r : Rng) (n : Nat) (l : List A) (hn : n < t.size)
    (hc : (t.node n).untried_actions = some l) :
    ∃ k, ((MCTS.step g t s r).1.node n).untried_actions = some (l.take k) := by
  have hsel := selectAux_pres g t.size t 0 s
  have hselc : ((MCTS.selectAux g t.size t 0 s).1.node n).untried_actions = some l :=
    hsel.2.2.1 n l hc
  have hsize : (MCTS.selectAux g t.size t 0 s).1.size = t.size := hsel.1
  simp only [MCTS.step, MCTS.selectExpand, MCTS.select]
  split
  · refine ⟨l.length, ?_⟩
    rw [((backpropagate_pres _ _ _).2 n).2.2.1, hselc, List.take_length]
  · rw [((backpropagate_pres _ _ _).2 n).2.2.1]
    by_cases heq : (MCTS.selectAux g t.size t 0 s).2.1 = n
    · rw [heq]
      exact expand_cache g (MCTS.selectAux g t.size t 0 s).1 n
        (MCTS.selectAux g t.size t 0 s).2.2 l (by rw [hsize]; exact hn) hselc
    · refine ⟨l.length, ?_⟩
      rw [expand_cache_other g (MCTS.selectAux g t.size t 0 s).1
        (MCTS.selectAux g t.size t 0 s).2.1 (MCTS.selectAux g t.size t 0 s).2.2 n
        (by rw [hsize]; exact hn) heq, hselc, List.take_length]

/-- C10: during expansion, untried actions are popped off the cached list
even when they fail the validity check: afterwards the cache holds a proper
prefix of its old value, every dropped action other than the one actually
expanded was invalid against this iteration's state, and across a whole
search step a populated cache can only shrink to a prefix (so an action
popped as invalid is permanently gone from the untried set and can never be
expanded at that node in a later iteration). -/
theorem expand_pops_invalid_permanently {S A C : Type} (g : Game S A C)
    (t : SearchTree A) (n : Nat) (s : S) (l : List A) (r : Rng)
    (hn : n < t.size) (hc : (t.node n).untried_actions = some l) :
    (∃ l2, ((MCTS.expand g t n s).1.node n).untried_actions = some l2 ∧
      (((MCTS.expand g t n s).2 = n ∧ l2 = [] ∧ ∀ a ∈ l, g.to_action a s = none) ∨
       (∃ a suf, l = l2 ++ a :: suf ∧ (g.to_action a s).isSome = true ∧
         (∀ b ∈ suf, g.to_action b s = none) ∧ (MCTS.expand g t n s).2 ≠ n ∧
         ((MCTS.expand g t n s).1.node (MCTS.expand g t n s).2).action_from_parent
           = some a))) ∧
    (∃ k, ((MCTS.step g t s r).1.node n).untried_actions = some (l.take k)) := by
  refine ⟨?_, step_cache_prefix g t s r n l hn hc⟩
  have heff : MCTS.effectiveUntried g (t.node n) s = l := by
    rw [MCTS.effectiveUntried, hc]
  rcases hres : MCTS.popFirstValid g s (MCTS.effectiveUntried g (t.node n) s).reverse
    with ⟨rem, o⟩
  cases o with
  | none =>
    rcases popFirstValid_spec g s _ _ _ hres with ⟨-, h2, h3⟩ |
      ⟨pre2, a2, post2, -, -, -, hcon, -⟩
    · rw [expand_eq_none g t n s rem hres]
      refine ⟨[], ?_, Or.inl ⟨rfl, rfl, fun a ha => ?_⟩⟩
      · rw [node_modify, if_pos ⟨rfl, hn⟩]
        simp [h2]
      · refine h3 a ?_
        rw [heff]
        exact List.mem_reverse.mpr ha
    · exact absurd hcon (by simp)
  | some a =>
    rcases popFirstValid_spec g s _ _ _ hres with ⟨hcon, -, -⟩ |
      ⟨pre, a2, post, h1, h2, h3, h4, h5⟩
    · exact absurd hcon (by simp)
    · have ha2 : a2 = a := by
        have := h4.symm
        simpa using this
      have hfst : (MCTS.expand g t n s).1
          = (SearchTree.mk
              ((t.modifyNode n (fun x => { x with untried_actions := some rem.reverse })).nodes
                ++ [{ children := [], parent := some n, param := (t.node n).param,
                      visits := 0, total_score := 0, untried_actions := none,
                      action_from_parent := some a }])).modifyNode n
              (fun x => { x with children := insertEntry x.children (ChildEntry.mk (g.keyOf a) a (t.modifyNode n (fun y => { y with untried_actions := some rem.reverse })).size) }) := by
        rw [expand_eq_some g t n s rem a hres]
      have hsnd : (MCTS.expand g t n s).2 = t.size := by
        rw [expand_eq_some g t n s rem a hres, size_modify]
      have hsplit : l = rem.reverse ++ a :: pre.reverse := by
        have h6 := congrArg List.reverse h1
        rw [heff, ha2, ← h5] at h6
        simpa [List.reverse_append] using h6
      refine ⟨rem.reverse, ?_, Or.inr ⟨a, pre.reverse, hsplit, ha2 ▸ h3, ?_, ?_, ?_⟩⟩
      · rw [hfst, node_modify, if_pos ⟨rfl, by rw [size_append, size_modify]; omega⟩]
        simp only
        rw [node_append, size_modify, if_pos hn, node_modify, if_pos ⟨rfl, hn⟩]
      · intro b hb
        exact h2 b (List.mem_reverse.mp hb)
      · rw [hsnd]
        omega
      · rw [hfst, hsnd, node_modify]
        rw [if_neg (by rintro ⟨hcon, -⟩; omega)]
        rw [node_append, size_modify]
        rw [if_neg (by omega), if_pos rfl]

/-- C10 witness: the root of `cacheTree` caches the untried actions `[5, 7]`;
after one search step of `singleActionGame` the cache holds a prefix of it. -/
theorem expand_pops_invalid_permanently_witness :
    0 < cacheTree.size ∧ (cacheTree.node 0).untried_actions = some [5, 7] ∧
    ∃ k, ((MCTS.step singleActionGame cacheTree 99 (rngConst 0)).1.node 0).untried_actions
      = some ([5, 7].take k) :=
  ⟨by decide, by decide,
    (expand_pops_invalid_permanently singleActionGame cacheTree 0 99 [5, 7]
      (rngConst 0) (by decide) (by decide)).2⟩

/-- C8: on a well-formed arena, `backpropagate(result)` called at node `i`
adds exactly one visit and exactly `result` to the accumulated score of `i`
and of every ancestor on the parent chain up to the root (the chain contains
`i` and the root), changes nothing else about any node, and is the only
phase mutating statistics: selection leaves every node's statistics intact,
and expansion leaves the statistics of every pre-existing node intact while
any newly created node starts with zero statistics. -/
theorem backpropagate_stats_frame {S A C : Type} (g : Game S A C)
    (t : SearchTree A) (i : Nat) (r : ℚ) (hwf : MCTS.WF t) (hi : i < t.size) :
    (∀ j, j ∈ MCTS.ancestors t i →
      (MCTS.backpropagate t i r).node j =
        { t.node j with visits := (t.node j).visits + 1,
                        total_score := (t.node j).total_score + r }) ∧
    (∀ j, j ∉ MCTS.ancestors t i → (MCTS.backpropagate t i r).node j = t.node j) ∧
    i ∈ MCTS.ancestors t i ∧ 0 ∈ MCTS.ancestors t i ∧
    (∀ fuel n s j,
      ((MCTS.selectAux g fuel t n s).1.node j).visits = (t.node j).visits ∧
      ((MCTS.selectAux g fuel t n s).1.node j).total_score = (t.node j).total_score) ∧
    (∀ n s, n < t.size →
      (∀ j, j < t.size →
        ((MCTS.expand g t n s).1.node j).visits = (t.node j).visits ∧
        ((MCTS.expand g t n s).1.node j).total_score = (t.node j).total_score) ∧
      (∀ j, t.size ≤ j →
        ((MCTS.expand g t n s).1.node j).visits = 0 ∧
        ((MCTS.expand g t n s).1.node j).total_score = 0)) := by
  refine ⟨fun j hj => (backpropagate_spec t i r hi j).1 hj,
    fun j hj => (backpropagate_spec t i r hi j).2 hj, ?_,
    wf_zero_mem_ancestors t hwf i hi, ?_, ?_⟩
  · rw [MCTS.ancestors, MCTS.ancestorsAux]
    exact List.mem_cons_self _ _
  · intro fuel n s j
    exact ⟨((selectAux_pres g fuel t n s).2.1 j).2.2.1,
      ((selectAux_pres g fuel t n s).2.1 j).2.2.2.1⟩
  · intro n s hn
    exact ⟨(expand_pres g t n s hn).2.2.1, (expand_pres g t n s hn).2.2.2.1⟩

/-- C8 witness: backpropagating the outcome 7 at the root of the fresh
one-node arena takes the root's visit count from 0 to 1. -/
theorem backpropagate_stats_frame_witness :
    MCTS.WF (MCTS.initTree Nat 1) ∧
    ((MCTS.backpropagate (MCTS.initTree Nat 1) 0 7).node 0).visits
      = ((MCTS.initTree Nat 1).node 0).visits + 1 :=
  ⟨wf_initTree 1, by
    rw [(backpropagate_stats_frame allValidGame (MCTS.initTree Nat 1) 0 7
      (wf_initTree 1) (by decide)).1 0 (by decide)]⟩
